import Mathlib

/-!
Shallow embedding of the hit-and-run sampling core of this repository
(`src/cobra/sampling/hr_sampler.py` and `src/cobra/sampling/mcmc.py`).

Real vectors are modelled as `List ℚ` (exact arithmetic in place of IEEE
floats), matrices as lists of rows.  Every random draw of the Python code
is an explicit input of the embedded function: a `np.random.uniform(lo, hi)`
draw is parametrised as `lo + u * (hi - lo)` with the rational `u` supplied
by the caller, `np.random.randint(n)` draws are supplied as naturals reduced
with `% n`, and `np.log(np.random.rand())` is supplied directly as the drawn
value `logU` (the logarithm is a bijection from `(0,1)` onto the negative
reals, so supplying its value is a faithful parametrisation).
-/

/-! ## Vector and matrix operations on rational lists -/

def dot (u v : List ℚ) : ℚ := (List.zipWith (· * ·) u v).sum

def matVec (m : List (List ℚ)) (v : List ℚ) : List ℚ := m.map (fun row => dot row v)

def vAdd (u v : List ℚ) : List ℚ := List.zipWith (· + ·) u v

def vSub (u v : List ℚ) : List ℚ := List.zipWith (· - ·) u v

def sMul (a : ℚ) (v : List ℚ) : List ℚ := v.map (fun x => a * x)

/-- `numpy.min` of a one-dimensional array; the Python code never applies it
to an empty array, `0` is returned there. -/
def listMin : List ℚ → ℚ
  | [] => 0
  | x :: xs => xs.foldl min x

/-- `numpy.max` of a one-dimensional array; the Python code never applies it
to an empty array, `0` is returned there. -/
def listMax : List ℚ → ℚ
  | [] => 0
  | x :: xs => xs.foldl max x

/-- Sum of a list of vectors, starting from a zero vector whose length is the
length of the first row (`numpy` sums along axis 0). -/
def vSum (l : List (List ℚ)) : List ℚ := l.foldr vAdd (List.replicate (l.headD []).length 0)

/-- `numpy.mean(axis=0)` of a stack of rows: the sum divided by the row count. -/
def vMean (l : List (List ℚ)) : List ℚ := sMul (1 / (l.length : ℚ)) (vSum l)

/-! ## The data model: `Problem` and the sampler state

`Problem` is the namedtuple of `hr_sampler.py`.  The 2 × n array
`variable_bounds` is kept as its two rows `variable_lb` / `variable_ub`, and
the 2 × m inequality-bounds array `bounds` as `ineq_lb` / `ineq_ub`
(both empty when the model has no inequality constraints, which is the
`bounds.shape[0] == 0` case of the Python code). -/

structure Problem where
  equalities : List (List ℚ)
  b : List ℚ
  inequalities : List (List ℚ)
  ineq_lb : List ℚ
  ineq_ub : List ℚ
  variable_fixed : List Bool
  variable_lb : List ℚ
  variable_ub : List ℚ
  /-- nullspace of the equality matrix, stored as a list of basis columns -/
  nullspace : List (List ℚ)
  homogeneous : Bool

/-- `prob.bounds.shape[0] > 0`: the problem carries inequality bounds. -/
def hasIneqBounds (p : Problem) : Bool := !p.ineq_lb.isEmpty || !p.ineq_ub.isEmpty

/-- The mutable state of an `HRSampler` / `MCMCACHRSampler` instance: the
frozen `Problem`, the warmup matrix (list of rows, `n_warmup` is its length)
and the evolving `center` / `prev` / counters, together with the sampling
tolerances and the `thinning` / `nproj` configuration. -/
structure Sampler where
  problem : Problem
  warmup : List (List ℚ)
  center : List ℚ
  prev : List ℚ
  n_samples : Nat
  retries : Nat
  thinning : Nat
  nproj : Nat
  feasibility_tol : ℚ
  bounds_tol : ℚ

/-! ## The step operator (`hr_sampler.py`, function `step`) -/

/-- Maximum number of retries for sampling (`MAX_TRIES = 100`). -/
def MAX_TRIES : Nat := 100

/-- `valid = (np.abs(delta) > sampler.feasibility_tol) & ~prob.variable_fixed`. -/
def validMask (s : Sampler) (delta : List ℚ) : List Bool :=
  List.zipWith (fun d f => decide (s.feasibility_tol < |d|) && !f) delta s.problem.variable_fixed

/-- One row of `((1.0 - bounds_tol) * bnd - base)[:, mask] / dir[mask]`:
for every index selected by `mask`, the signed distance along `dir` from
`base` to the slightly tightened bound `bnd`. -/
def alphasFor (bt : ℚ) (bnd base dir : List ℚ) (mask : List Bool) : List ℚ :=
  ((List.range dir.length).filter (fun i => mask.getD i false)).map
    (fun i => ((1 - bt) * bnd.getD i 0 - base.getD i 0) / dir.getD i 0)

/-- All permissible step lengths: the variable-bound alphas (lower row then
upper row, as the `flatten` of the 2 × k numpy block) followed, when the
problem has inequality bounds, by the inequality-bound alphas. -/
def stepAlphas (s : Sampler) (x delta : List ℚ) : List ℚ :=
  let vm := validMask s delta
  let valphas := alphasFor s.bounds_tol s.problem.variable_lb x delta vm
              ++ alphasFor s.bounds_tol s.problem.variable_ub x delta vm
  if hasIneqBounds s.problem then
    let ineqs := matVec s.problem.inequalities delta
    let im := ineqs.map (fun d => decide (s.feasibility_tol < |d|))
    let ix := matVec s.problem.inequalities x
    valphas ++ (alphasFor s.bounds_tol s.problem.ineq_lb ix ineqs im
             ++ alphasFor s.bounds_tol s.problem.ineq_ub ix ineqs im)
  else valphas

/-- `alpha_range = [neg_alphas.max() if any else 0, pos_alphas.min() if any else 0]`. -/
def alphaRange (alphas : List ℚ) : ℚ × ℚ :=
  let pos := alphas.filter (fun a => decide (0 < a))
  let neg := alphas.filter (fun a => decide (a ≤ 0))
  (if neg.length > 0 then listMax neg else 0, if pos.length > 0 then listMin pos else 0)

/-- Python truthiness of the `fraction` argument (`if fraction:`): `None` and
`0.0` are falsy, every other float is truthy. -/
def truthy : Option ℚ → Bool
  | none => false
  | some q => decide (q ≠ 0)

/-- `alpha = alpha_range[0] + fraction * (alpha_range[1] - alpha_range[0])`. -/
def interpAlpha (f : ℚ) (r : ℚ × ℚ) : ℚ := r.1 + f * (r.2 - r.1)

/-- `alpha = np.random.uniform(alpha_range[0], alpha_range[1])`, with the
uniform draw parametrised by `u ∈ [0,1)`. -/
def uniformAlpha (u : ℚ) (r : ℚ × ℚ) : ℚ := r.1 + u * (r.2 - r.1)

/-- The step length chosen by `step`: the fraction-weighted interpolation when
`fraction` is truthy, otherwise a uniform draw in the feasible interval. -/
def chooseAlpha (fraction : Option ℚ) (u : ℚ) (r : ℚ × ℚ) : ℚ :=
  if truthy fraction then interpAlpha (fraction.getD 0) r else uniformAlpha u r

/-- The candidate point `p = x + alpha * delta` of one `step` attempt,
returned together with the feasible alpha interval. -/
def stepCandidate (s : Sampler) (x delta : List ℚ) (fraction : Option ℚ) (u : ℚ) :
    List ℚ × (ℚ × ℚ) :=
  let r := alphaRange (stepAlphas s x delta)
  (vAdd x (sMul (chooseAlpha fraction u r) delta), r)

/-- `HRSampler._bounds_dist(p)`: the two-element array
`[lb_dist, ub_dist]` of minimal lower-bound and upper-bound distances,
folding in the inequality rows when the problem has inequality bounds. -/
def boundsDist (s : Sampler) (p : List ℚ) : List ℚ :=
  let lb_dist := listMin (List.zipWith (fun a bb => a - bb) p s.problem.variable_lb)
  let ub_dist := listMin (List.zipWith (fun a bb => a - bb) s.problem.variable_ub p)
  if hasIneqBounds s.problem then
    let c := matVec s.problem.inequalities p
    [min lb_dist (listMin (List.zipWith (fun a bb => a - bb) c s.problem.ineq_lb)),
     min ub_dist (listMin (List.zipWith (fun a bb => a - bb) s.problem.ineq_ub c))]
  else [lb_dist, ub_dist]

/-- The numerical-failure test of `step`:
`np.any(sampler._bounds_dist(p) < -sampler.bounds_tol)
 or np.abs(np.abs(alpha_range).max() * delta).max() < sampler.bounds_tol`. -/
def stepFails (s : Sampler) (p : List ℚ) (r : ℚ × ℚ) (delta : List ℚ) : Bool :=
  (boundsDist s p).any (fun d => decide (d < -s.bounds_tol))
    || decide (listMax (delta.map (fun d => |max |r.1| |r.2| * d|)) < s.bounds_tol)

/-- Whether a single `step` attempt with immediate inputs `x`, `delta`,
`fraction` and uniform draw `u` hits the numerical-failure branch. -/
def failsAt (s : Sampler) (x delta : List ℚ) (fraction : Option ℚ) (u : ℚ) : Bool :=
  stepFails s (stepCandidate s x delta fraction u).1 (stepCandidate s x delta fraction u).2 delta

/-- The fresh retry direction `newdir - sampler.center` where
`newdir = sampler.warmup[np.random.randint(sampler.n_warmup)]`. -/
def retryDelta (s : Sampler) (k : Nat) : List ℚ :=
  vSub (s.warmup.getD (k % s.warmup.length) []) s.center

/-- The recursion of `step`, indexed by the decreasing counter
`remaining = MAX_TRIES + 1 - tries`: the Python guard `tries > MAX_TRIES`
holds exactly when `remaining = 0`, and the recursive call at `tries + 1`
is the call at `remaining - 1`.  The level with counter `remaining` uses the
random pair `rng remaining` (uniform draw, warmup index).  The result is the
returned point (`none` models the fatal `RuntimeError`) paired with the
number of `sampler.retries += 1` increments performed. -/
def stepAux (s : Sampler) (rng : Nat → ℚ × Nat) :
    Nat → List ℚ → List ℚ → Option ℚ → Option (List ℚ) × Nat
  | 0, x, delta, fraction =>
    let c := stepCandidate s x delta fraction (rng 0).1
    if stepFails s c.1 c.2 delta then (none, 0) else (some c.1, 0)
  | r + 1, x, delta, fraction =>
    let c := stepCandidate s x delta fraction (rng (r + 1)).1
    if stepFails s c.1 c.2 delta then
      let res := stepAux s rng r s.center (retryDelta s ((rng (r + 1)).2)) none
      (res.1, res.2 + 1)
    else (some c.1, 0)

/-- `step(sampler, x, delta, fraction=None, tries=0)` of `hr_sampler.py`,
as called by every call site (`tries = 0`, hence `remaining = MAX_TRIES + 1`). -/
def step (s : Sampler) (x delta : List ℚ) (fraction : Option ℚ) (rng : Nat → ℚ × Nat) :
    Option (List ℚ) × Nat :=
  stepAux s rng (MAX_TRIES + 1) x delta fraction

/-! ## Concrete instances used to evaluate the definitions -/

/-- A one-variable problem with box bounds `[-1, 1]` and no equality or
inequality constraints. -/
def probOK : Problem :=
  { equalities := [], b := [], inequalities := [], ineq_lb := [], ineq_ub := [],
    variable_fixed := [false], variable_lb := [-1], variable_ub := [1],
    nullspace := [], homogeneous := false }

/-- A well-behaved sampler on `probOK`: one warmup row `[1/2]`, center and
previous point at the origin. -/
def sOK : Sampler :=
  { problem := probOK, warmup := [[1/2]], center := [0], prev := [0],
    n_samples := 0, retries := 0, thinning := 1, nproj := 1000000,
    feasibility_tol := 1/1000, bounds_tol := 1/1000 }

/-- A random stream whose uniform draw is always `1/2` and whose integer
draw is always `0`. -/
def rngHalf : Nat → ℚ × Nat := fun _ => (1/2, 0)

/-- A degenerate sampler whose only warmup row coincides with the center, so
every retry direction is the zero vector and every `step` attempt fails the
degenerate-interval test. -/
def sC2 : Sampler :=
  { problem := probOK, warmup := [[0]], center := [0], prev := [0],
    n_samples := 0, retries := 0, thinning := 1, nproj := 1,
    feasibility_tol := 1/1000, bounds_tol := 1/1000 }

/-- The all-zero random stream. -/
def rngZero : Nat → ℚ × Nat := fun _ => (0, 0)

/-! ## List minimum / maximum helper lemmas -/

lemma le_foldl_min (c : ℚ) :
    ∀ (l : List ℚ) (a : ℚ), c ≤ a → (∀ x ∈ l, c ≤ x) → c ≤ l.foldl min a := by
  intro l
  induction l with
  | nil => intro a ha _; simpa using ha
  | cons x xs ih =>
    intro a ha h
    simp only [List.foldl_cons]
    exact ih (min a x) (le_min ha (h x (by simp))) (fun y hy => h y (by simp [hy]))

lemma le_listMin_of_forall {c : ℚ} {l : List ℚ} (hne : l ≠ [])
    (h : ∀ x ∈ l, c ≤ x) : c ≤ listMin l := by
  cases l with
  | nil => exact absurd rfl hne
  | cons x xs =>
    simp only [listMin]
    exact le_foldl_min c xs x (h x (by simp)) (fun y hy => h y (by simp [hy]))

lemma foldl_max_le (c : ℚ) :
    ∀ (l : List ℚ) (a : ℚ), a ≤ c → (∀ x ∈ l, x ≤ c) → l.foldl max a ≤ c := by
  intro l
  induction l with
  | nil => intro a ha _; simpa using ha
  | cons x xs ih =>
    intro a ha h
    simp only [List.foldl_cons]
    exact ih (max a x) (max_le ha (h x (by simp))) (fun y hy => h y (by simp [hy]))

lemma listMax_le {c : ℚ} {l : List ℚ} (h : ∀ x ∈ l, x ≤ c) (h0 : 0 ≤ c) :
    listMax l ≤ c := by
  cases l with
  | nil => simpa [listMax] using h0
  | cons x xs =>
    simp only [listMax]
    exact foldl_max_le c xs x (h x (by simp)) (fun y hy => h y (by simp [hy]))

lemma le_foldl_max (a b : ℚ) (l : List ℚ) (hab : a ≤ b) : a ≤ l.foldl max b := by
  induction l generalizing b with
  | nil => simpa using hab
  | cons x xs ih => exact ih (max b x) (le_trans hab (le_max_left b x))

lemma mem_le_foldl_max : ∀ (l : List ℚ) (a x : ℚ), x ∈ l → x ≤ l.foldl max a := by
  intro l
  induction l with
  | nil => intro a x hx; simp at hx
  | cons y ys ih =>
    intro a x hx
    simp only [List.foldl_cons]
    rcases List.mem_cons.mp hx with h | h
    · exact h ▸ le_foldl_max y (max a y) ys (le_max_right a y)
    · exact ih (max a y) x h

lemma le_listMax_of_mem {x : ℚ} {l : List ℚ} (h : x ∈ l) : x ≤ listMax l := by
  cases l with
  | nil => simp at h
  | cons y ys =>
    simp only [listMax]
    rcases List.mem_cons.mp h with h' | h'
    · exact h' ▸ le_foldl_max y y ys le_rfl
    · exact mem_le_foldl_max ys y x h'

/-! ## Facts about the numerical-failure test of `step` -/

lemma boundsDist_ne_nil (s : Sampler) (p : List ℚ) : boundsDist s p ≠ [] := by
  unfold boundsDist
  split <;> simp

/-- When the failure test is negative, the candidate satisfies every bound up
to `-bounds_tol`: the minimum of the `_bounds_dist` entries is at least
`-bounds_tol`. -/
lemma bounds_ok_of_not_fails (s : Sampler) (p : List ℚ) (r : ℚ × ℚ) (delta : List ℚ)
    (h : stepFails s p r delta = false) : -s.bounds_tol ≤ listMin (boundsDist s p) := by
  simp only [stepFails, Bool.or_eq_false_iff] at h
  obtain ⟨h1, -⟩ := h
  apply le_listMin_of_forall (boundsDist_ne_nil s p)
  intro d hd
  have h2 : ¬ (d < -s.bounds_tol) := by simpa using List.any_eq_false.mp h1 d hd
  exact not_lt.mp h2

lemma stepAux_ok_bounds (s : Sampler) (rng : Nat → ℚ × Nat) :
    ∀ (m : Nat) (x delta : List ℚ) (fraction : Option ℚ) (p : List ℚ) (k : Nat),
      stepAux s rng m x delta fraction = (some p, k) →
      -s.bounds_tol ≤ listMin (boundsDist s p) := by
  intro m
  induction m with
  | zero =>
    intro x delta fraction p k h
    simp only [stepAux] at h
    by_cases hf : stepFails s (stepCandidate s x delta fraction (rng 0).1).1
        (stepCandidate s x delta fraction (rng 0).1).2 delta = true
    · rw [if_pos hf] at h
      simp at h
    · rw [if_neg hf] at h
      simp only [Prod.mk.injEq, Option.some.injEq] at h
      obtain ⟨h1, -⟩ := h
      exact h1 ▸ bounds_ok_of_not_fails s _ _ delta (Bool.eq_false_iff.mpr hf)
  | succ r ih =>
    intro x delta fraction p k h
    simp only [stepAux] at h
    by_cases hf : stepFails s (stepCandidate s x delta fraction (rng (r + 1)).1).1
        (stepCandidate s x delta fraction (rng (r + 1)).1).2 delta = true
    · rw [if_pos hf] at h
      have h1 := congrArg Prod.fst h
      simp only [Prod.fst] at h1
      exact ih s.center (retryDelta s ((rng (r + 1)).2)) none p
        (stepAux s rng r s.center (retryDelta s ((rng (r + 1)).2)) none).2
        (by rw [← h1])
    · rw [if_neg hf] at h
      simp only [Prod.mk.injEq, Option.some.injEq] at h
      obtain ⟨h1, -⟩ := h
      exact h1 ▸ bounds_ok_of_not_fails s _ _ delta (Bool.eq_false_iff.mpr hf)

/-- Claim C3: every point that `step` returns (rather than raising) lies
within `[lower - bounds_tol, upper + bounds_tol]` for every variable bound and
every inequality row: the minimum of all lower-bound and upper-bound distances
computed by `_bounds_dist` is at least `-bounds_tol`, for any input point and
any direction. -/
theorem step_result_within_bounds_tol (s : Sampler) (x delta : List ℚ)
    (fraction : Option ℚ) (rng : Nat → ℚ × Nat) (p : List ℚ) (k : Nat)
    (h : step s x delta fraction rng = (some p, k)) :
    -s.bounds_tol ≤ listMin (boundsDist s p) :=
  stepAux_ok_bounds s rng (MAX_TRIES + 1) x delta fraction p k h

/-- Witness for claim C3 at a concrete successful `step` call. -/
theorem step_result_within_bounds_tol_witness :
    step sOK [0] [1/2] none rngHalf = (some [0], 0) ∧
      -sOK.bounds_tol ≤ listMin (boundsDist sOK [0]) := by
  have h : step sOK [0] [1/2] none rngHalf = (some [0], 0) := by
    with_unfolding_all decide
  exact ⟨h, step_result_within_bounds_tol sOK [0] [1/2] none rngHalf [0] 0 h⟩

/-! ## Claim C2: the retry cap of `step` -/

lemma stepAux_all_fail (s : Sampler) (rng : Nat → ℚ × Nat) :
    ∀ (m : Nat) (x delta : List ℚ) (fraction : Option ℚ),
      failsAt s x delta fraction (rng m).1 = true →
      (∀ r, r < m →
        failsAt s s.center (retryDelta s ((rng (r + 1)).2)) none ((rng r).1) = true) →
      stepAux s rng m x delta fraction = (none, m) := by
  intro m
  induction m with
  | zero =>
    intro x delta fraction h0 _
    simp only [failsAt] at h0
    simp only [stepAux]
    rw [if_pos h0]
  | succ r ih =>
    intro x delta fraction h0 hall
    simp only [failsAt] at h0
    simp only [stepAux]
    rw [if_pos h0,
      ih s.center (retryDelta s ((rng (r + 1)).2)) none (hall r (Nat.lt_succ_self r))
        (fun q hq => hall q (Nat.lt_succ_of_lt hq))]

/-- Claim C2 (amended): when the numerical-failure test is positive at the
initial attempt and at every retry from the center, `step` makes 102
consecutive failing attempts in total: the first 101 failures (`tries` values
0 to 100) each increment the sampler's retry counter and retry from the
sampler's center along a fresh random warmup direction, and the 102nd failure
(`tries = 101 > MAX_TRIES`) raises the fatal non-retryable error.  The result
`(none, MAX_TRIES + 1)` records the abort and the 101 retry increments. -/
theorem step_aborts_after_102_failures (s : Sampler) (x delta : List ℚ)
    (fraction : Option ℚ) (rng : Nat → ℚ × Nat)
    (h0 : failsAt s x delta fraction ((rng (MAX_TRIES + 1)).1) = true)
    (hall : ∀ r, r < MAX_TRIES + 1 →
      failsAt s s.center (retryDelta s ((rng (r + 1)).2)) none ((rng r).1) = true) :
    step s x delta fraction rng = (none, MAX_TRIES + 1) :=
  stepAux_all_fail s rng (MAX_TRIES + 1) x delta fraction h0 hall

/-- Counterexample for claim C2 as stated: on a sampler whose every attempt
fails (zero direction, warmup row equal to the center), `step` aborts only
after 102 consecutive failures and has by then incremented the retry counter
101 times — more than the stated cap of `MAX_TRIES = 100` consecutive
failures, under which at most 99 retries could have been recorded before the
abort. -/
theorem step_retry_count_counterexample :
    step sC2 [0] [0] none rngZero = (none, 101) ∧ MAX_TRIES < 101 := by
  exact ⟨by with_unfolding_all decide, by decide⟩

/-- Witness for the amended claim C2 at a concrete always-failing input. -/
theorem step_aborts_after_102_failures_witness :
    failsAt sC2 [0] [0] none ((rngZero (MAX_TRIES + 1)).1) = true ∧
      step sC2 [0] [0] none rngZero = (none, MAX_TRIES + 1) := by
  refine ⟨by with_unfolding_all decide, ?_⟩
  have hfail : failsAt sC2 sC2.center (retryDelta sC2 0) none 0 = true := by
    with_unfolding_all decide
  exact step_aborts_after_102_failures sC2 [0] [0] none rngZero
    (by with_unfolding_all decide)
    (fun r _ => hfail)

/-! ## Claim C10: a zero `fraction` is falsy -/

/-- Claim C10: calling `step` with `fraction = 0` is indistinguishable from
passing no fraction at all — the step length is drawn uniformly from the
feasible interval (because `if fraction:` is falsy at `0.0`) instead of the
fraction-weighted interpolation, which at fraction `0` would sit at the
interval's lower endpoint. -/
theorem step_zero_fraction_draws_uniform :
    (∀ (s : Sampler) (x delta : List ℚ) (rng : Nat → ℚ × Nat),
      step s x delta (some 0) rng = step s x delta none rng) ∧
    (∀ r : ℚ × ℚ, interpAlpha 0 r = r.1) := by
  have hcand : ∀ (s : Sampler) (x delta : List ℚ) (u : ℚ),
      stepCandidate s x delta (some 0) u = stepCandidate s x delta none u := by
    intro s x delta u
    simp [stepCandidate, chooseAlpha, truthy]
  constructor
  · intro s x delta rng
    have haux : ∀ m : Nat,
        stepAux s rng m x delta (some 0) = stepAux s rng m x delta none := by
      intro m
      cases m with
      | zero => simp only [stepAux]; rw [hcand]
      | succ r => simp only [stepAux]; rw [hcand]
    exact haux (MAX_TRIES + 1)
  · intro r
    simp [interpAlpha]

/-! ## Reprojection (`HRSampler._reproject`, `HRSampler._random_point`) -/

/-- The elementwise equality residuals `np.abs(equalities.dot(p) - b)`. -/
def residList (eq : List (List ℚ)) (b q : List ℚ) : List ℚ :=
  List.zipWith (fun a bb => |a - bb|) (matVec eq q) b

/-- The equality residual `‖equalities·q - b‖_∞` of a point. -/
def eqResidual (s : Sampler) (q : List ℚ) : ℚ :=
  listMax (residList s.problem.equalities s.problem.b q)

/-- `nulls.dot(nulls.T.dot(p))`: the projection of `p` onto the span of the
stored nullspace columns. -/
def nullProject (cols : List (List ℚ)) (p : List ℚ) : List ℚ :=
  (cols.map (fun c => sMul (dot c p) c)).foldr vAdd (List.replicate p.length 0)

/-- `np.ceil(np.sqrt n)` on naturals. -/
def ceilSqrt (n : Nat) : Nat :=
  if Nat.sqrt n * Nat.sqrt n = n then Nat.sqrt n else Nat.sqrt n + 1

/-- `HRSampler._random_point`: the mean of `min(2, ceil(sqrt(n_warmup)))`
randomly indexed warmup rows; the random index draws are supplied in `idxs`. -/
def randomPoint (s : Sampler) (idxs : List Nat) : List ℚ :=
  let k := min 2 (ceilSqrt s.warmup.length)
  vMean ((idxs.take k).map (fun i => s.warmup.getD (i % s.warmup.length) []))

/-- `HRSampler._reproject(p)`: return `p` unchanged when
`np.allclose(equalities.dot(p), b, rtol=0, atol=feasibility_tol)`; otherwise
project `p` onto the nullspace; if the resulting point differs from `p`
(`any(new != p)`), substitute `_random_point()` instead. -/
def reproject (s : Sampler) (idxs : List Nat) (p : List ℚ) : List ℚ :=
  let new :=
    if (residList s.problem.equalities s.problem.b p).all
        (fun d => decide (d ≤ s.feasibility_tol)) then p
    else nullProject s.problem.nullspace p
  if new ≠ p then randomPoint s idxs else new

/-! ## The special-case checks of `generate_fva_warmup`

After redundancy filtering, `self.warmup` is a row-filtered 2-D array, so
`len(self.warmup.shape) == 1` can never hold there and the first Python guard
reduces to `self.warmup.shape[0] == 1`. -/

/-- `newdir = self.warmup.T.dot([0.25, 0.25])` for a two-row warmup matrix. -/
def vCombine (rows : List (List ℚ)) : List ℚ :=
  vAdd (sMul (1/4) (rows.getD 0 [])) (sMul (1/4) (rows.getD 1 []))

/-- The tail of `HRSampler.generate_fva_warmup` acting on the filtered warmup
rows: raise on a single surviving direction, raise on exactly two surviving
directions when the problem is non-homogeneous, append a synthesized third
direction on exactly two surviving directions when homogeneous, and pass the
rows through unchanged otherwise. -/
def warmupSpecialCases (homogeneous : Bool) (rows : List (List ℚ)) :
    Except String (List (List ℚ)) :=
  if rows.length = 1 then
    Except.error "Your flux cone consists only of a single point"
  else if rows.length = 2 then
    if homogeneous = false then
      Except.error "Can not sample from an inhomogenous problem with only 2 search directions"
    else Except.ok (rows ++ [vCombine rows])
  else Except.ok rows

/-- Whether the `generate_fva_warmup` tail raised a `ValueError`. -/
def isErr {α : Type} : Except String α → Bool
  | Except.error _ => true
  | Except.ok _ => false

/-- Claim C4 (amended): the special-case check of `generate_fva_warmup` raises
exactly when precisely one direction survives redundancy filtering, or when
exactly two survive on a non-homogeneous problem.  Zero survivors do not
trigger the check. -/
theorem warmup_special_cases_error_iff (homogeneous : Bool) (rows : List (List ℚ)) :
    isErr (warmupSpecialCases homogeneous rows) = true ↔
      (rows.length = 1 ∨ (rows.length = 2 ∧ homogeneous = false)) := by
  unfold warmupSpecialCases
  split_ifs with h1 h2 h3 <;> simp_all [isErr]

/-- Counterexample for claim C4 as stated: with zero surviving directions
(fewer than 2) the check raises no error at all, the empty row list is passed
through as `Except.ok`. -/
theorem warmup_zero_survivors_no_error :
    isErr (warmupSpecialCases true ([] : List (List ℚ))) = false ∧
      ([] : List (List ℚ)).length < 2 := by
  exact ⟨rfl, by decide⟩

/-! ## Linearity lemmas for `dot` over rational lists -/

lemma dot_replicate_zero (r : List ℚ) : ∀ n : Nat, dot r (List.replicate n 0) = 0 := by
  induction r with
  | nil => intro n; simp [dot]
  | cons a r ih =>
    intro n
    cases n with
    | zero => simp [dot]
    | succ m =>
      simp only [dot, List.replicate_succ, List.zipWith_cons_cons, List.sum_cons, mul_zero,
        zero_add]
      simpa [dot] using ih m

lemma vAdd_length (u v : List ℚ) : (vAdd u v).length = min u.length v.length := by
  simp [vAdd]

lemma sMul_length (a : ℚ) (v : List ℚ) : (sMul a v).length = v.length := by
  simp [sMul]

lemma dot_vAdd (r : List ℚ) :
    ∀ (u v : List ℚ), u.length = v.length → dot r (vAdd u v) = dot r u + dot r v := by
  induction r with
  | nil => intro u v _; simp [dot]
  | cons a r ih =>
    intro u v h
    cases u with
    | nil =>
      cases v with
      | nil => simp [dot, vAdd]
      | cons y v' => simp at h
    | cons x u' =>
      cases v with
      | nil => simp at h
      | cons y v' =>
        have h2 := ih u' v' (by simpa using h)
        simp only [dot, vAdd, List.zipWith_cons_cons, List.sum_cons] at h2 ⊢
        rw [h2]
        ring

lemma dot_sMul (r : List ℚ) : ∀ (a : ℚ) (v : List ℚ), dot r (sMul a v) = a * dot r v := by
  induction r with
  | nil => intro a v; simp [dot]
  | cons x r ih =>
    intro a v
    cases v with
    | nil => simp [dot, sMul]
    | cons y v' =>
      have h2 := ih a v'
      simp only [dot, sMul, List.map_cons, List.zipWith_cons_cons, List.sum_cons] at h2 ⊢
      rw [h2]
      ring

lemma foldr_vAdd_length (nv : ℕ) :
    ∀ (L : List (List ℚ)) (z : List ℚ), (∀ w ∈ L, w.length = nv) → z.length = nv →
      (L.foldr vAdd z).length = nv := by
  intro L
  induction L with
  | nil => intro z _ hz; simpa using hz
  | cons w ws ih =>
    intro z hw hz
    simp only [List.foldr_cons]
    rw [vAdd_length, hw w (by simp), ih z (fun y hy => hw y (by simp [hy])) hz]
    simp

lemma dot_foldr_vAdd (r : List ℚ) (nv : ℕ) :
    ∀ (L : List (List ℚ)) (z : List ℚ), (∀ w ∈ L, w.length = nv) → z.length = nv →
      dot r (L.foldr vAdd z) = (L.map (dot r)).sum + dot r z := by
  intro L
  induction L with
  | nil => intro z _ _; simp
  | cons w ws ih =>
    intro z hw hz
    simp only [List.foldr_cons, List.map_cons, List.sum_cons]
    rw [dot_vAdd r w (ws.foldr vAdd z)
        (by rw [hw w (by simp), foldr_vAdd_length nv ws z (fun y hy => hw y (by simp [hy])) hz]),
      ih z (fun y hy => hw y (by simp [hy])) hz]
    ring

lemma dot_vMean (r : List ℚ) (nv : ℕ) (L : List (List ℚ)) (hne : L ≠ [])
    (hlen : ∀ w ∈ L, w.length = nv) :
    dot r (vMean L) = (1 / (L.length : ℚ)) * (L.map (dot r)).sum := by
  have hz : (List.replicate (L.headD []).length (0 : ℚ)).length = nv := by
    rw [List.length_replicate]
    cases L with
    | nil => exact absurd rfl hne
    | cons w ws => simpa using hlen w (by simp)
  unfold vMean vSum
  rw [dot_sMul, dot_foldr_vAdd r nv L _ hlen hz, dot_replicate_zero, add_zero]

lemma sum_map_sub (l : List ℚ) (c : ℚ) :
    (l.map (fun d => d - c)).sum = l.sum - l.length * c := by
  induction l with
  | nil => simp
  | cons x xs ih =>
    simp only [List.map_cons, List.sum_cons, List.length_cons, ih]
    push_cast
    ring

lemma abs_sum_le (c : ℚ) :
    ∀ (l : List ℚ), (∀ x ∈ l, |x| ≤ c) → |l.sum| ≤ l.length * c := by
  intro l
  induction l with
  | nil => intro _; simp
  | cons x xs ih =>
    intro h
    have h1 := h x (by simp)
    have h2 := ih (fun y hy => h y (by simp [hy]))
    simp only [List.sum_cons, List.length_cons]
    push_cast
    calc |x + xs.sum| ≤ |x| + |xs.sum| := abs_add x xs.sum
      _ ≤ c + (xs.length : ℚ) * c := add_le_add h1 h2
      _ = ((xs.length : ℚ) + 1) * c := by ring

/-- Averaging preserves an entrywise residual bound: if every row of `L`
satisfies `|dot row w - bb| ≤ ft`, so does the mean of `L`. -/
lemma mean_entry_bound (row : List ℚ) (bb ft : ℚ) (nv : ℕ) (L : List (List ℚ))
    (hne : L ≠ []) (hlen : ∀ w ∈ L, w.length = nv)
    (h : ∀ w ∈ L, |dot row w - bb| ≤ ft) :
    |dot row (vMean L) - bb| ≤ ft := by
  have hk : (0 : ℚ) < (L.length : ℚ) := by
    cases L with
    | nil => exact absurd rfl hne
    | cons w ws => exact_mod_cast Nat.succ_pos ws.length
  have hk' : (L.length : ℚ) ≠ 0 := ne_of_gt hk
  rw [dot_vMean row nv L hne hlen]
  have key : |(L.map (dot row)).sum - (L.length : ℚ) * bb| ≤ (L.length : ℚ) * ft := by
    have hrw : (L.map (dot row)).sum - (L.length : ℚ) * bb
        = ((L.map (dot row)).map (fun d => d - bb)).sum := by
      rw [sum_map_sub]
      simp
    rw [hrw]
    have := abs_sum_le ft ((L.map (dot row)).map (fun d => d - bb)) ?hmem
    · simpa using this
    case hmem =>
      intro x hx
      simp only [List.map_map, List.mem_map, Function.comp] at hx
      obtain ⟨w, hw, rfl⟩ := hx
      exact h w hw
  have hsplit : 1 / (L.length : ℚ) * (L.map (dot row)).sum - bb
      = (1 / (L.length : ℚ)) * ((L.map (dot row)).sum - (L.length : ℚ) * bb) := by
    field_simp
  rw [hsplit, abs_mul, abs_of_pos (one_div_pos.mpr hk)]
  calc 1 / (L.length : ℚ) * |(L.map (dot row)).sum - (L.length : ℚ) * bb|
      ≤ 1 / (L.length : ℚ) * ((L.length : ℚ) * ft) :=
        mul_le_mul_of_nonneg_left key (le_of_lt (one_div_pos.mpr hk))
    _ = ft := by field_simp

/-! ## Structural lemmas about `residList` -/

lemma residList_nil (b q : List ℚ) : residList [] b q = [] := by
  simp [residList, matVec]

lemma residList_nil_right (eqs : List (List ℚ)) (q : List ℚ) :
    residList eqs [] q = [] := by
  simp [residList]

lemma residList_cons (row : List ℚ) (eqs : List (List ℚ)) (bb : ℚ) (b q : List ℚ) :
    residList (row :: eqs) (bb :: b) q = |dot row q - bb| :: residList eqs b q := by
  simp [residList, matVec]

lemma residList_mem (eqs : List (List ℚ)) :
    ∀ (b q : List ℚ) (x : ℚ), x ∈ residList eqs b q →
      ∃ row ∈ eqs, ∃ bb ∈ b, x = |dot row q - bb| := by
  induction eqs with
  | nil => intro b q x hx; rw [residList_nil] at hx; simp at hx
  | cons row eqs ih =>
    intro b q x hx
    cases b with
    | nil => rw [residList_nil_right] at hx; simp at hx
    | cons bb b' =>
      rw [residList_cons] at hx
      rcases List.mem_cons.mp hx with h | h
      · exact ⟨row, by simp, bb, by simp, h⟩
      · obtain ⟨r2, hr2, bb2, hbb2, hx2⟩ := ih b' q x h
        exact ⟨r2, by simp [hr2], bb2, by simp [hbb2], hx2⟩

/-- The residual entries of a mean of rows stay below a bound satisfied by
every row, equality row by equality row. -/
lemma residList_mean_le (ft : ℚ) (nv : ℕ) (L : List (List ℚ)) (hne : L ≠ [])
    (hlen : ∀ w ∈ L, w.length = nv) :
    ∀ (eqs : List (List ℚ)) (b : List ℚ),
      (∀ w ∈ L, ∀ y ∈ residList eqs b w, y ≤ ft) →
      ∀ x ∈ residList eqs b (vMean L), x ≤ ft := by
  intro eqs
  induction eqs with
  | nil => intro b _ x hx; rw [residList_nil] at hx; simp at hx
  | cons row eqs ih =>
    intro b h x hx
    cases b with
    | nil => rw [residList_nil_right] at hx; simp at hx
    | cons bb b' =>
      rw [residList_cons] at hx
      rcases List.mem_cons.mp hx with h1 | h1
      · have hw : ∀ w ∈ L, |dot row w - bb| ≤ ft := by
          intro w hwmem
          exact h w hwmem _ (by rw [residList_cons]; simp)
        exact h1 ▸ mean_entry_bound row bb ft nv L hne hlen hw
      · refine ih b' ?_ x h1
        intro w hwmem y hy
        exact h w hwmem y (by rw [residList_cons]; simp [hy])

lemma dot_nullProject_zero (row : List ℚ) (cols : List (List ℚ)) (p : List ℚ)
    (hz : ∀ c ∈ cols, dot row c = 0) (hlen : ∀ c ∈ cols, c.length = p.length) :
    dot row (nullProject cols p) = 0 := by
  unfold nullProject
  rw [dot_foldr_vAdd row p.length (cols.map (fun c => sMul (dot c p) c)) _ ?hmap (by simp)]
  · rw [dot_replicate_zero, add_zero]
    apply List.sum_eq_zero
    intro x hx
    simp only [List.map_map, List.mem_map, Function.comp] at hx
    obtain ⟨c, hc, rfl⟩ := hx
    rw [dot_sMul, hz c hc, mul_zero]
  case hmap =>
    intro w hw
    obtain ⟨c, hc, rfl⟩ := List.mem_map.mp hw
    rw [sMul_length]
    exact hlen c hc

lemma ceilSqrt_pos {n : Nat} (h : 0 < n) : 0 < ceilSqrt n := by
  unfold ceilSqrt
  split_ifs with hsq
  · rcases Nat.eq_zero_or_pos (Nat.sqrt n) with h0 | h0
    · rw [h0] at hsq
      simp at hsq
      omega
    · exact h0
  · omega

lemma getD_mod_mem {l : List (List ℚ)} (hne : l ≠ []) (i : Nat) :
    l.getD (i % l.length) [] ∈ l := by
  have hlen : 0 < l.length := List.length_pos.mpr hne
  have hi : i % l.length < l.length := Nat.mod_lt i hlen
  rw [List.getD_eq_getElem l [] hi]
  exact List.getElem_mem hi

/-! ## Claim C6: the residual guarantee of `_reproject` -/

/-- Claim C6 (amended): under the preconditions that the problem's right-hand
side is homogeneous within the tolerance (`|b_j| ≤ feasibility_tol` for every
entry, the setting in which `_reproject` is invoked), that every warmup row
satisfies the equality system within `feasibility_tol`, and that the stored
nullspace columns really annihilate the equality rows, every point returned by
`_reproject` satisfies `‖equalities·p - b‖_∞ ≤ feasibility_tol`: an
already-feasible input is returned unchanged (with residual at most the
tolerance), and an infeasible input is replaced by its nullspace projection
(only when that projection equals the input) or by an average of randomly
chosen warmup rows, both of which satisfy the bound. -/
theorem reproject_residual_le_feasibility_tol (s : Sampler) (idxs : List Nat)
    (p : List ℚ) (nv : ℕ)
    (htol : 0 ≤ s.feasibility_tol)
    (hb : ∀ bb ∈ s.problem.b, |bb| ≤ s.feasibility_tol)
    (hwarm : ∀ w ∈ s.warmup, eqResidual s w ≤ s.feasibility_tol)
    (hwlen : ∀ w ∈ s.warmup, w.length = nv)
    (hnull : ∀ c ∈ s.problem.nullspace, ∀ row ∈ s.problem.equalities, dot row c = 0)
    (hnlen : ∀ c ∈ s.problem.nullspace, c.length = p.length)
    (hne : s.warmup ≠ [])
    (hidx : min 2 (ceilSqrt s.warmup.length) ≤ idxs.length) :
    eqResidual s (reproject s idxs p) ≤ s.feasibility_tol := by
  have hrand : eqResidual s (randomPoint s idxs) ≤ s.feasibility_tol := by
    unfold randomPoint eqResidual
    apply listMax_le _ htol
    intro x hx
    have hknz : 0 < min 2 (ceilSqrt s.warmup.length) := by
      have := ceilSqrt_pos (List.length_pos.mpr hne)
      omega
    refine residList_mean_le s.feasibility_tol nv _ ?hchne ?hlen2
      s.problem.equalities s.problem.b ?hall x hx
    case hchne =>
      apply List.ne_nil_of_length_pos
      simp only [List.length_map, List.length_take]
      omega
    case hlen2 =>
      intro w hw
      obtain ⟨i, hi, rfl⟩ := List.mem_map.mp hw
      exact hwlen _ (getD_mod_mem hne i)
    case hall =>
      intro w hw y hy
      obtain ⟨i, hi, rfl⟩ := List.mem_map.mp hw
      exact le_trans (le_listMax_of_mem hy) (hwarm _ (getD_mod_mem hne i))
  simp only [reproject]
  by_cases hok : (residList s.problem.equalities s.problem.b p).all
      (fun d => decide (d ≤ s.feasibility_tol)) = true
  · rw [if_pos hok, if_neg (by simp : ¬ p ≠ p)]
    apply listMax_le _ htol
    intro x hx
    simpa using List.all_eq_true.mp hok x hx
  · rw [if_neg hok]
    by_cases hnp : nullProject s.problem.nullspace p ≠ p
    · rw [if_pos hnp]
      exact hrand
    · rw [if_neg hnp]
      apply listMax_le _ htol
      intro x hx
      obtain ⟨row, hrow, bb, hbb, rfl⟩ := residList_mem _ _ _ x hx
      rw [dot_nullProject_zero row _ p (fun c hc => hnull c hc row hrow) hnlen, zero_sub,
        abs_neg]
      exact hb bb hbb

/-- A homogeneous two-variable problem `x1 + x2 = 0` with nullspace column
`[1, -1]` and a two-row warmup on the feasible line. -/
def prob6 : Problem :=
  { equalities := [[1, 1]], b := [0], inequalities := [], ineq_lb := [], ineq_ub := [],
    variable_fixed := [false, false], variable_lb := [-10, -10], variable_ub := [10, 10],
    nullspace := [[1, -1]], homogeneous := true }

/-- Sampler on `prob6`. -/
def s6 : Sampler :=
  { problem := prob6, warmup := [[1, -1], [2, -2]], center := [0, 0], prev := [0, 0],
    n_samples := 0, retries := 0, thinning := 1, nproj := 1,
    feasibility_tol := 1/1000, bounds_tol := 1/1000 }

/-- A non-homogeneous problem `x1 = 5` whose nullspace column `[0, 1]` fixes
the infeasible point `[0, 1]` under nullspace projection. -/
def prob6c : Problem :=
  { equalities := [[1, 0]], b := [5], inequalities := [], ineq_lb := [], ineq_ub := [],
    variable_fixed := [false, false], variable_lb := [-10, -10], variable_ub := [10, 10],
    nullspace := [[0, 1]], homogeneous := false }

/-- Sampler on `prob6c`; its single warmup row `[5, 0]` satisfies the equality
system exactly. -/
def s6c : Sampler :=
  { problem := prob6c, warmup := [[5, 0]], center := [0, 0], prev := [0, 0],
    n_samples := 0, retries := 0, thinning := 1, nproj := 1,
    feasibility_tol := 1/2, bounds_tol := 1/2 }

/-- Counterexample for claim C6 as stated: on the non-homogeneous problem
`x1 = 5` every warmup row satisfies the equality system within
`feasibility_tol`, yet `_reproject` applied to the infeasible point `[0, 1]`
returns it unchanged (the nullspace projection coincides with the input, so
`any(new != p)` is false), with residual `5 ≥ feasibility_tol = 1/2`.  The
claimed bound needs homogeneity of the right-hand side, and at the feasible
boundary `allclose` uses a non-strict comparison, so the achievable bound is
`≤ feasibility_tol`, not `<`. -/
theorem reproject_residual_counterexample :
    (∀ w ∈ s6c.warmup, eqResidual s6c w < s6c.feasibility_tol) ∧
      reproject s6c [0] [0, 1] = [0, 1] ∧
      ¬ (eqResidual s6c (reproject s6c [0] [0, 1]) < s6c.feasibility_tol) := by
  refine ⟨by with_unfolding_all decide, by with_unfolding_all decide,
    by with_unfolding_all decide⟩

/-- Witness for the amended claim C6 at a concrete infeasible input whose
reprojection falls back to a random warmup average. -/
theorem reproject_residual_le_feasibility_tol_witness :
    (∀ w ∈ s6.warmup, eqResidual s6 w ≤ s6.feasibility_tol) ∧
      eqResidual s6 (reproject s6 [0, 1] [5, 5]) ≤ s6.feasibility_tol := by
  refine ⟨by with_unfolding_all decide, ?_⟩
  exact reproject_residual_le_feasibility_tol s6 [0, 1] [5, 5] 2
    (by with_unfolding_all decide) (by with_unfolding_all decide) (by with_unfolding_all decide)
    (by with_unfolding_all decide) (by with_unfolding_all decide)
    (by with_unfolding_all decide) (by with_unfolding_all decide)
    (by with_unfolding_all decide)

/-! ## The MCMC single iteration (`mcmc.py`, `MCMCACHRSampler.__single_iteration`)

The `validatecheck=False` path (the default) is modelled; the optional
validity-search loop is switched off in every claim considered here. -/

/-- The random draws consumed by one internal iteration: the warmup row index
`pi`, the stream feeding `step`, and the index draws of the two potential
`_random_point` calls inside `_reproject` (for `prev` and for `center`). -/
structure IterRand where
  pi : Nat
  stepRng : Nat → ℚ × Nat
  reprojIdx : List Nat
  reprojIdxC : List Nat

/-- The reprojection trigger of `__single_iteration`:
`self.problem.homogeneous and (self.n_samples * self.thinning % self.nproj == 0)`
(Python precedence: `(n_samples * thinning) % nproj`). -/
def reprojGuard (s : Sampler) : Prop :=
  s.problem.homogeneous = true ∧ (s.n_samples * s.thinning) % s.nproj = 0

instance (s : Sampler) : Decidable (reprojGuard s) := by
  unfold reprojGuard
  infer_instance

/-- `MCMCACHRSampler.__single_iteration(lockCenter, validatecheck=False)`:
draw a warmup direction through the center, advance `prev` by `step` (`none`
models the fatal `RuntimeError` propagating), reproject `prev` — and `center`
unless locked — when `reprojGuard` holds, update the center as
`(n_samples * center) / (n_samples + 1) + prev / (n_samples + 1)` unless
locked, and increment `n_samples`. -/
def singleIteration (s : Sampler) (r : IterRand) (lockCenter : Bool) : Option Sampler :=
  let delta := vSub (s.warmup.getD (r.pi % s.warmup.length) []) s.center
  let stepRes := step s s.prev delta none r.stepRng
  match stepRes.1 with
  | none => none
  | some testprev =>
    let pc :=
      if reprojGuard s then
        (reproject s r.reprojIdx testprev,
          if lockCenter = false then reproject s r.reprojIdxC s.center else s.center)
      else (testprev, s.center)
    let center2 :=
      if lockCenter = false then
        List.zipWith (fun c p => ((s.n_samples : ℚ) * c) / ((s.n_samples : ℚ) + 1)
          + p / ((s.n_samples : ℚ) + 1)) pc.2 pc.1
      else pc.2
    some { s with
      prev := pc.1
      center := center2
      n_samples := s.n_samples + 1
      retries := s.retries + stepRes.2 }

/-- The center value entering the running-mean update of an iteration: the
current center, reprojected when `reprojGuard` holds and the center is not
locked. -/
def midCenter (s : Sampler) (r : IterRand) (lockCenter : Bool) : List ℚ :=
  if reprojGuard s then
    (if lockCenter = false then reproject s r.reprojIdxC s.center else s.center)
  else s.center

/-- An internal iteration in which no reprojection occurs, as the spec words
the off-schedule case: `prev` advances by the step operator and, unless
locked, the center is updated as the running mean; nothing is reprojected. -/
def iterationNoReproj (s : Sampler) (r : IterRand) (lockCenter : Bool) : Option Sampler :=
  let delta := vSub (s.warmup.getD (r.pi % s.warmup.length) []) s.center
  let stepRes := step s s.prev delta none r.stepRng
  match stepRes.1 with
  | none => none
  | some newPrev =>
    let center2 :=
      if lockCenter = false then
        List.zipWith (fun c p => ((s.n_samples : ℚ) * c) / ((s.n_samples : ℚ) + 1)
          + p / ((s.n_samples : ℚ) + 1)) s.center newPrev
      else s.center
    some { s with
      prev := newPrev
      center := center2
      n_samples := s.n_samples + 1
      retries := s.retries + stepRes.2 }

/-- An internal iteration in which reprojection does occur, as the spec words
the on-schedule case: the stepped `prev` is reprojected, the center is
reprojected unless locked, and then the running-mean update is applied unless
locked. -/
def iterationWithReproj (s : Sampler) (r : IterRand) (lockCenter : Bool) : Option Sampler :=
  let delta := vSub (s.warmup.getD (r.pi % s.warmup.length) []) s.center
  let stepRes := step s s.prev delta none r.stepRng
  match stepRes.1 with
  | none => none
  | some newPrev =>
    let prev2 := reproject s r.reprojIdx newPrev
    let center1 := if lockCenter = false then reproject s r.reprojIdxC s.center else s.center
    let center2 :=
      if lockCenter = false then
        List.zipWith (fun c p => ((s.n_samples : ℚ) * c) / ((s.n_samples : ℚ) + 1)
          + p / ((s.n_samples : ℚ) + 1)) center1 prev2
      else center1
    some { s with
      prev := prev2
      center := center2
      n_samples := s.n_samples + 1
      retries := s.retries + stepRes.2 }

/-- Claim C5 (amended): reprojection of `prev` (and of `center` when not
locked) happens in an internal iteration exactly when the problem is
homogeneous and `(n_samples * thinning) % nproj = 0` — the step counter
multiplied by the thinning factor, not the bare step counter, is what is
reduced modulo `nproj`. -/
theorem single_iteration_reprojection_schedule (s : Sampler) (r : IterRand)
    (lockCenter : Bool) :
    singleIteration s r lockCenter =
      if reprojGuard s then iterationWithReproj s r lockCenter
      else iterationNoReproj s r lockCenter := by
  by_cases hg : reprojGuard s
  · rw [if_pos hg]
    simp only [singleIteration, iterationWithReproj, if_pos hg]
  · rw [if_neg hg]
    simp only [singleIteration, iterationNoReproj, if_neg hg]

/-- A homogeneous one-variable problem `x1 = 0` (empty nullspace basis). -/
def prob5 : Problem :=
  { equalities := [[1]], b := [0], inequalities := [], ineq_lb := [], ineq_ub := [],
    variable_fixed := [false], variable_lb := [-1], variable_ub := [1],
    nullspace := [], homogeneous := true }

/-- A sampler on `prob5` with `thinning = 2`, `nproj = 2` and an odd step
counter `n_samples = 1`. -/
def s5 : Sampler :=
  { problem := prob5, warmup := [[1]], center := [1/2], prev := [1/2],
    n_samples := 1, retries := 0, thinning := 2, nproj := 2,
    feasibility_tol := 1/1000, bounds_tol := 1/1000 }

/-- Iteration randomness for the `s5` counterexample: uniform draw `3/4`. -/
def r5 : IterRand :=
  { pi := 0, stepRng := fun _ => (3/4, 0), reprojIdx := [0], reprojIdxC := [0] }

/-- Iteration randomness for the `sOK` witnesses: uniform draw `1/2`. -/
def rOK : IterRand :=
  { pi := 0, stepRng := fun _ => (1/2, 0), reprojIdx := [], reprojIdxC := [] }

set_option maxRecDepth 4000 in
/-- Counterexample for claim C5 as stated: with `thinning = 2`, `nproj = 2`
and step counter `n_samples = 1` the counter is no multiple of `nproj`
(`1 % 2 ≠ 0`), so by the claim no reprojection may occur at this iteration;
but `(1 * 2) % 2 = 0`, so the code does reproject: the iteration yields
`prev = [1]` (a reprojected random warmup average) where the
reprojection-free iteration yields the stepped point `[999/2000]`. -/
theorem reprojection_schedule_counterexample :
    s5.n_samples % s5.nproj ≠ 0 ∧
      (singleIteration s5 r5 false).map Sampler.prev = some [1] ∧
      (iterationNoReproj s5 r5 false).map Sampler.prev = some [999/2000] ∧
      ([1] : List ℚ) ≠ [999/2000] := by
  refine ⟨by decide, by with_unfolding_all decide, by with_unfolding_all decide,
    by with_unfolding_all decide⟩

/-! ## Claim C9: the running-mean center update -/

lemma zipWith_congr_fun {f g : ℚ → ℚ → ℚ} (h : ∀ a b, f a b = g a b) :
    ∀ (l1 l2 : List ℚ), List.zipWith f l1 l2 = List.zipWith g l1 l2 := by
  intro l1
  induction l1 with
  | nil => intro l2; simp
  | cons x xs ih =>
    intro l2
    cases l2 with
    | nil => simp
    | cons y ys => simp [h x y, ih ys]

/-- Claim C9: on every internal iteration with the center not locked, the new
center equals the exact running mean `(n_samples·center + prev)/(n_samples+1)`
of the center entering the update (reprojected first when the schedule says
so) and the new `prev`, computed with the pre-increment value of `n_samples`;
and `n_samples` is incremented by exactly 1 in the same iteration, after the
center update. -/
theorem center_update_exact_running_mean (s : Sampler) (r : IterRand) (s2 : Sampler)
    (h : singleIteration s r false = some s2) :
    s2.n_samples = s.n_samples + 1 ∧
      s2.center = List.zipWith
        (fun c p => ((s.n_samples : ℚ) * c + p) / ((s.n_samples : ℚ) + 1))
        (midCenter s r false) s2.prev := by
  simp only [singleIteration] at h
  split at h
  · exact absurd h (by simp)
  · simp only [Option.some.injEq] at h
    subst h
    refine ⟨rfl, ?_⟩
    by_cases hg : reprojGuard s
    · simp only [midCenter, if_pos hg, if_pos (rfl : false = false)]
      exact zipWith_congr_fun (fun a b => div_add_div_same _ _ _) _ _
    · simp only [midCenter, if_neg hg, if_pos (rfl : false = false)]
      exact zipWith_congr_fun (fun a b => div_add_div_same _ _ _) _ _

/-- Witness for claim C9 at a concrete successful iteration. -/
theorem center_update_exact_running_mean_witness :
    ((singleIteration sOK rOK false).getD sOK).n_samples = sOK.n_samples + 1 ∧
      ((singleIteration sOK rOK false).getD sOK).center = List.zipWith
        (fun c p => ((sOK.n_samples : ℚ) * c + p) / ((sOK.n_samples : ℚ) + 1))
        (midCenter sOK rOK false) ((singleIteration sOK rOK false).getD sOK).prev := by
  have h : singleIteration sOK rOK false
      = some ((singleIteration sOK rOK false).getD sOK) := by
    with_unfolding_all rfl
  exact center_update_exact_running_mean sOK rOK _ h

/-! ## The MCMC sampling loop (`mcmc.py`, `MCMCACHRSampler.sample`) -/

/-- The random draws of one loop iteration of `sample`: the iteration draws
and the value of `np.log(np.random.rand())` for the Metropolis test. -/
structure SampleRand where
  iter : IterRand
  logU : ℚ

/-- The loop state of `sample`: the walker, the Metropolis bookkeeping
(`previousPosterior` starts at the Python sentinel `False`, which compares
and computes as the number `0`, so `if not previousPosterior:` is modelled as
`previousPosterior = 0`; `savePrev` starts as `None`; `bestSample` truthiness
is `isSome`, a non-empty tuple being always truthy), the iteration and
rejection counters, and the emitted rows. -/
structure SampleAcc where
  s : Sampler
  previousPosterior : ℚ
  savePrev : Option (List ℚ)
  totalSamples : Nat
  rejections : Nat
  bestSample : Option (ℚ × List ℚ)
  samples : List (List ℚ)

/-- The Metropolis block of `sample`, executed only when the center is
locked: compute `newPosterior = likelihood(prev) + prior(prev)` (an absent
function contributes 0); when `not previousPosterior` accept unconditionally;
otherwise accept iff `log(uniform) < newPosterior - previousPosterior`,
refreshing `bestSample`; otherwise reject, rolling `prev` back to the saved
state (`getD []` stands for the crash a `None` rollback would be — that
branch is reachable only after a save) and counting a rejection. -/
def mcmcUpdate (lik pri : Option (List ℚ → ℚ)) (logU : ℚ) (acc : SampleAcc) : SampleAcc :=
  let newLikelihood := match lik with | some f => f acc.s.prev | none => 0
  let newPrior := match pri with | some f => f acc.s.prev | none => 0
  let newPosterior := newLikelihood + newPrior
  let acceptProbability := newPosterior - acc.previousPosterior
  if acc.previousPosterior = 0 then
    { acc with previousPosterior := newPosterior, savePrev := some acc.s.prev }
  else if logU < acceptProbability then
    { acc with
      previousPosterior := newPosterior
      savePrev := some acc.s.prev
      bestSample :=
        match acc.bestSample with
        | none => some (newPosterior, acc.s.prev)
        | some bp =>
          if newPosterior > bp.1 then some (newPosterior, acc.s.prev) else some bp }
  else
    { acc with
      s := { acc.s with prev := acc.savePrev.getD [] }
      rejections := acc.rejections + 1 }

/-- The loop `for i in range(1, thinning * n + 1)` of `sample`: one internal
iteration, the Metropolis block when locked, and an emission of the current
`prev` every `thinning`-th value of `i`.  The per-iteration random draws are
supplied as the list `rands` (of length `thinning * n`). -/
def sampleLoop (lik pri : Option (List ℚ → ℚ)) (lockCenter : Bool) :
    List SampleRand → Nat → SampleAcc → Option SampleAcc
  | [], _, acc => some acc
  | r :: rs, i, acc =>
    match singleIteration acc.s r.iter lockCenter with
    | none => none
    | some s1 =>
      let acc1 : SampleAcc := { acc with s := s1, totalSamples := acc.totalSamples + 1 }
      let acc2 := if lockCenter = true then mcmcUpdate lik pri r.logU acc1 else acc1
      let acc3 := if i % acc2.s.thinning = 0 then
          { acc2 with samples := acc2.samples ++ [acc2.s.prev] } else acc2
      sampleLoop lik pri lockCenter rs (i + 1) acc3

/-- The initial loop state of a `sample` call (`bestSample` is `None` at
construction and this models the first call of `sample`). -/
def initAcc (s : Sampler) : SampleAcc :=
  { s := s, previousPosterior := 0, savePrev := none, totalSamples := 0,
    rejections := 0, bestSample := none, samples := [] }

/-- `MCMCACHRSampler.sample(n, likelihood, prior)`: the center is locked
exactly when `prior or likelihood` is truthy, then the loop runs over the
supplied per-iteration draws. -/
def sample (s : Sampler) (lik pri : Option (List ℚ → ℚ)) (rands : List SampleRand) :
    Option SampleAcc :=
  sampleLoop lik pri (pri.isSome || lik.isSome) rands 1 (initAcc s)

/-- The acceptance rate printed at the end of `sample`:
`(totalSamples - rejections) / totalSamples`. -/
def acceptanceRate (acc : SampleAcc) : ℚ :=
  ((acc.totalSamples : ℚ) - (acc.rejections : ℚ)) / (acc.totalSamples : ℚ)

/-! ## The plain ACHR walk, modelled from the spec (claim C8)

The repository's plain `ACHRSampler` is not under `src/`; its walk is
modelled from the spec (sections 4.5 and 4.6): direction from a random
warmup row through the center, advance by the step operator, reprojection of
`prev` and `center` on the reprojection schedule, an exact running-mean
center update on every internal step, and an emission every `thinning`-th
step.  The schedule trigger is realized by `reprojGuard`, since the spec
describes both samplers with the same sentence. -/

lemma runningMean_eq (n : ℚ) (C P : List ℚ) :
    List.zipWith (fun c p => (n * c) / (n + 1) + p / (n + 1)) C P
      = List.zipWith (fun c p => (n * c + p) / (n + 1)) C P :=
  zipWith_congr_fun (fun _ _ => div_add_div_same _ _ _) C P

/-- Modelled from the spec: one internal iteration of the plain ACHR walk. -/
def bareIteration (s : Sampler) (r : IterRand) : Option Sampler :=
  let delta := vSub (s.warmup.getD (r.pi % s.warmup.length) []) s.center
  let stepRes := step s s.prev delta none r.stepRng
  match stepRes.1 with
  | none => none
  | some newPrev =>
    let prev2 := if reprojGuard s then reproject s r.reprojIdx newPrev else newPrev
    let center1 := if reprojGuard s then reproject s r.reprojIdxC s.center else s.center
    let center2 := List.zipWith
      (fun c p => ((s.n_samples : ℚ) * c + p) / ((s.n_samples : ℚ) + 1)) center1 prev2
    some { s with
      prev := prev2
      center := center2
      n_samples := s.n_samples + 1
      retries := s.retries + stepRes.2 }

/-- Modelled from the spec: the plain ACHR walk, emitting `prev` every
`thinning`-th internal step. -/
def bareWalkLoop : List IterRand → Nat → Sampler → List (List ℚ) →
    Option (Sampler × List (List ℚ))
  | [], _, cur, out => some (cur, out)
  | r :: rs, i, cur, out =>
    match bareIteration cur r with
    | none => none
    | some s1 =>
      bareWalkLoop rs (i + 1) s1 (if i % s1.thinning = 0 then out ++ [s1.prev] else out)

/-- Modelled from the spec: a plain ACHR sampling run. -/
def bareWalk (s : Sampler) (rands : List IterRand) : Option (Sampler × List (List ℚ)) :=
  bareWalkLoop rands 1 s []

/-- An unlocked MCMC internal iteration is exactly one bare ACHR iteration. -/
lemma bareIteration_eq_unlocked (s : Sampler) (r : IterRand) :
    singleIteration s r false = bareIteration s r := by
  simp only [singleIteration, bareIteration]
  cases hstep : (step s s.prev (vSub (s.warmup.getD (r.pi % s.warmup.length) []) s.center)
      none r.stepRng).1 with
  | none => rfl
  | some tp =>
    by_cases hg : reprojGuard s
    · simp only [if_pos hg, if_pos (rfl : false = false), if_true]
      rw [runningMean_eq]
    · simp only [if_neg hg, if_pos (rfl : false = false), if_true]
      rw [runningMean_eq]

lemma sampleLoop_unlocked (lik pri : Option (List ℚ → ℚ)) :
    ∀ (rands : List SampleRand) (i : Nat) (acc res : SampleAcc),
      sampleLoop lik pri false rands i acc = some res →
      res.rejections = acc.rejections ∧
        res.totalSamples = acc.totalSamples + rands.length ∧
        bareWalkLoop (rands.map SampleRand.iter) i acc.s acc.samples
          = some (res.s, res.samples) := by
  intro rands
  induction rands with
  | nil =>
    intro i acc res h
    simp only [sampleLoop, Option.some.injEq] at h
    subst h
    simp [bareWalkLoop]
  | cons r rs ih =>
    intro i acc res h
    simp only [sampleLoop] at h
    rw [bareIteration_eq_unlocked acc.s r.iter] at h
    simp only [List.map_cons, bareWalkLoop]
    cases hb : bareIteration acc.s r.iter with
    | none => rw [hb] at h; simp at h
    | some s1 =>
      rw [hb] at h
      simp only [Bool.false_eq_true, if_false] at h
      show res.rejections = acc.rejections ∧
          res.totalSamples = acc.totalSamples + (r :: rs).length ∧
          bareWalkLoop (List.map SampleRand.iter rs) (i + 1) s1
            (if i % s1.thinning = 0 then acc.samples ++ [s1.prev] else acc.samples)
            = some (res.s, res.samples)
      by_cases hthin : i % s1.thinning = 0
      · rw [if_pos hthin] at h
        rw [if_pos hthin]
        obtain ⟨h1, h2, h3⟩ := ih (i + 1) _ res h
        refine ⟨by simpa using h1,
          by have h4 := h2; simp at h4; simp only [List.length_cons]; omega,
          by simpa using h3⟩
      · rw [if_neg hthin] at h
        rw [if_neg hthin]
        obtain ⟨h1, h2, h3⟩ := ih (i + 1) _ res h
        refine ⟨by simpa using h1,
          by have h4 := h2; simp at h4; simp only [List.length_cons]; omega,
          by simpa using h3⟩

/-- Claim C8: when `sample` is called with `likelihood=None` and
`prior=None`, the center is not locked, no iteration is ever rejected, the
reported acceptance rate is exactly 1, and the run is the plain ACHR walk
without the MCMC layer: the emitted chain and the final walker state (whose
center was updated on every internal step) are those of the spec-modelled
bare geometric walk on the same random draws. -/
theorem sample_without_posterior_is_bare_achr (s : Sampler) (rands : List SampleRand)
    (res : SampleAcc) (h : sample s none none rands = some res) :
    res.rejections = 0 ∧ res.totalSamples = rands.length ∧
      (rands ≠ [] → acceptanceRate res = 1) ∧
      bareWalk s (rands.map SampleRand.iter) = some (res.s, res.samples) := by
  have h0 : sampleLoop none none false rands 1 (initAcc s) = some res := h
  obtain ⟨h1, h2, h3⟩ := sampleLoop_unlocked none none rands 1 (initAcc s) res h0
  have hr : res.rejections = 0 := by simpa [initAcc] using h1
  have ht : res.totalSamples = rands.length := by simpa [initAcc] using h2
  refine ⟨hr, ht, ?_, by simpa [bareWalk, initAcc] using h3⟩
  intro hne
  have hlen : (rands.length : ℚ) ≠ 0 := by
    have := List.length_pos.mpr hne
    exact_mod_cast Nat.pos_iff_ne_zero.mp this
  rw [acceptanceRate, hr, ht]
  field_simp

/-- Per-iteration randomness for the claim C8 witness. -/
def rnd8 : SampleRand := { iter := rOK, logU := 0 }

/-- Witness for claim C8 at a concrete one-iteration run. -/
theorem sample_without_posterior_is_bare_achr_witness :
    ((sample sOK none none [rnd8]).getD (initAcc sOK)).rejections = 0 ∧
      acceptanceRate ((sample sOK none none [rnd8]).getD (initAcc sOK)) = 1 := by
  have h : sample sOK none none [rnd8]
      = some ((sample sOK none none [rnd8]).getD (initAcc sOK)) := by
    with_unfolding_all rfl
  have hall := sample_without_posterior_is_bare_achr sOK [rnd8] _ h
  exact ⟨hall.1, hall.2.2.1 (by simp)⟩

/-! ## Claim C1: the unconditional-acceptance branch of `sample` -/

/-- A log-likelihood that is `0` at the origin and `-5` elsewhere. -/
def likMC : List ℚ → ℚ := fun p => if p = [(0 : ℚ)] then (0 : ℚ) else -5

/-- Second-iteration randomness for the claim C1 run: uniform draw `3/4`. -/
def mcIter2 : IterRand :=
  { pi := 0, stepRng := fun _ => (3/4, 0), reprojIdx := [], reprojIdxC := [] }

/-- First iteration draws for the claim C1 run. -/
def mcRnd1 : SampleRand := { iter := rOK, logU := -1 }

/-- Second iteration draws for the claim C1 run. -/
def mcRnd2 : SampleRand := { iter := mcIter2, logU := -1 }

set_option maxRecDepth 4000 in
/-- Claim C1, evidence of the code bug at the failing input: a locked
two-iteration run in which the first accepted posterior is exactly `0.0`.
On iteration 2 the claim (and the code's own comment `always accept on first
iteration`) requires the Metropolis test, which here rejects
(`log(u) = -1 < -5 - 0` is false), rolling `prev` back to `[0]` and counting
one rejection; but `not previousPosterior` is truthy again at `0.0`, so the
code re-enters the unconditional-acceptance branch: the new state
`[999/2000]` is accepted, no rejection is counted, `previousPosterior`
becomes `-5`, and `bestSample` is never set (that update lives only in the
Metropolis-accept branch). -/
theorem mcmc_zero_posterior_unconditional_accept_eval :
    ((sample sOK (some likMC) none [mcRnd1, mcRnd2]).getD (initAcc sOK)).rejections = 0 ∧
      ((sample sOK (some likMC) none [mcRnd1, mcRnd2]).getD (initAcc sOK)).s.prev
        = [999/2000] ∧
      ((sample sOK (some likMC) none [mcRnd1, mcRnd2]).getD (initAcc sOK)).previousPosterior
        = -5 ∧
      ((sample sOK (some likMC) none [mcRnd1, mcRnd2]).getD (initAcc sOK)).bestSample
        = none ∧
      ¬ (mcRnd2.logU < -5 - 0) := by
  refine ⟨by with_unfolding_all decide, by with_unfolding_all decide,
    by with_unfolding_all decide, by with_unfolding_all decide,
    by with_unfolding_all decide⟩

/-! ## The validator (`hr_sampler.py`, `HRSampler.validate`) -/

/-- The per-row code construction of `validate` from the row's equality
residual `feas` and minimal lower/upper-bound slacks `lbe` / `ube`: start
from the empty code, write `"v"` on valid rows, then append `"l"`, `"u"` and
`"e"` for the three violations in that order, using the validation-specific
tolerances `vft` / `vbt`. -/
def validateCode (vft vbt : ℚ) (feas lbe ube : ℚ) : String :=
  let c0 := if feas < vft ∧ -vbt < lbe ∧ -vbt < ube then "v" else ""
  let c1 := if lbe ≤ -vbt then c0 ++ "l" else c0
  let c2 := if ube ≤ -vbt then c1 ++ "u" else c1
  if vft < feas then c2 ++ "e" else c2

/-- The per-row lower-bound error of `validate` before any inequality
folding: `lb_error = (samples - bounds[0,]).min(axis=1)` evaluated at one
sample row. -/
def rowBaseLbError (s : Sampler) (x : List ℚ) : ℚ :=
  listMin (List.zipWith (fun a bb => a - bb) x s.problem.variable_lb)

/-- The per-row upper-bound error of `validate` before any inequality
folding: `ub_error = (bounds[1,] - samples).min(axis=1)` evaluated at one
sample row. -/
def rowBaseUbError (s : Sampler) (x : List ℚ) : ℚ :=
  listMin (List.zipWith (fun a bb => a - bb) s.problem.variable_ub x)

/-- `HRSampler.validate` on a variables-space sample matrix `xs`, for
problems with at most one inequality row — the only inequality shapes on
which the source returns one code per sample row.  When the problem has
exactly one inequality row, `consts = prob.inequalities.dot(samples.T)` has
shape `(1, N)` and `prob.bounds[0,]` has shape `(1,)`, so the broadcast
difference is `(1, N)` and `.min(axis=1)` collapses to the single minimum
inequality slack over ALL `N` sample rows; `np.minimum` then broadcasts that
global value into every row of `lb_error` / `ub_error`.  (With two or more
inequality rows the same broadcast yields `(m,)`-shaped error vectors for a
single sample, mixes sample and constraint indices when `N = m`, and raises
for other multi-row shapes; those paths are not modelled.) -/
def validateCodes (s : Sampler) (vft vbt : ℚ) (xs : List (List ℚ)) : List String :=
  if s.problem.inequalities.length ≠ 0 then
    let a := s.problem.inequalities.getD 0 []
    let globalLb := listMin (xs.map (fun x => dot a x - s.problem.ineq_lb.getD 0 0))
    let globalUb := listMin (xs.map (fun x => s.problem.ineq_ub.getD 0 0 - dot a x))
    xs.map (fun x => validateCode vft vbt (eqResidual s x)
      (min (rowBaseLbError s x) globalLb)
      (min (rowBaseUbError s x) globalUb))
  else
    xs.map (fun x => validateCode vft vbt (eqResidual s x)
      (rowBaseLbError s x) (rowBaseUbError s x))

/-- The per-row code as the claim's sentence words it: `"v"` alone exactly
when all three checks pass, otherwise the concatenation of `"l"` when the
lower slack is at most `-vbt`, `"u"` when the upper slack is at most `-vbt`,
and `"e"` when the residual exceeds `vft`. -/
def claimCode (vft vbt : ℚ) (feas lbe ube : ℚ) : String :=
  if feas < vft ∧ -vbt < lbe ∧ -vbt < ube then "v"
  else (if lbe ≤ -vbt then "l" else "") ++ (if ube ≤ -vbt then "u" else "")
    ++ (if vft < feas then "e" else "")

/-- The minimum lower-bound slack of one row as the claim (and the docstring
of `validate`, which promises one code per sample denoting that sample's own
validation result) describes it: the row's own variable slacks folded with
the row's own inequality slacks.  This is the quantity the commented-out
per-row fold (`diff0[i,:] = consts[i] - prob.bounds[0, i]` with
`.min(axis=0)`) computes; the active code does not compute it when
inequality rows are present. -/
def claimRowLbError (s : Sampler) (x : List ℚ) : ℚ :=
  if s.problem.inequalities.length ≠ 0 then
    min (rowBaseLbError s x) (listMin (List.zipWith (fun a bb => a - bb)
      (matVec s.problem.inequalities x) s.problem.ineq_lb))
  else rowBaseLbError s x

/-- The minimum upper-bound slack of one row as the claim describes it; see
`claimRowLbError`. -/
def claimRowUbError (s : Sampler) (x : List ℚ) : ℚ :=
  if s.problem.inequalities.length ≠ 0 then
    min (rowBaseUbError s x) (listMin (List.zipWith (fun a bb => a - bb)
      s.problem.ineq_ub (matVec s.problem.inequalities x)))
  else rowBaseUbError s x

lemma validateCode_eq_claimCode (vft vbt feas lbe ube : ℚ) :
    validateCode vft vbt feas lbe ube = claimCode vft vbt feas lbe ube := by
  simp only [validateCode, claimCode]
  by_cases hv : feas < vft ∧ -vbt < lbe ∧ -vbt < ube
  · have hu : ¬ (ube ≤ -vbt) := not_le.mpr hv.2.2
    have he : ¬ (vft < feas) := asymm hv.1
    rw [if_pos hv, if_pos hv, if_neg (not_le.mpr hv.2.1), if_neg hu, if_neg he]
  · rw [if_neg hv, if_neg hv]
    split_ifs <;> rfl

/-- A two-variable problem with equality `x1 - x2 = 0`, wide variable bounds
and a single inequality row `x1 + x2 ∈ [0, 10]`. -/
def prob7 : Problem :=
  { equalities := [[1, -1]], b := [0], inequalities := [[1, 1]],
    ineq_lb := [0], ineq_ub := [10],
    variable_fixed := [false, false], variable_lb := [-100, -100],
    variable_ub := [100, 100], nullspace := [], homogeneous := true }

/-- Sampler on `prob7`. -/
def s7 : Sampler :=
  { problem := prob7, warmup := [[1, 1]], center := [0, 0], prev := [0, 0],
    n_samples := 0, retries := 0, thinning := 1, nproj := 1,
    feasibility_tol := 1/1000, bounds_tol := 1/1000 }

/-- Claim C7, evidence of the code bug at the failing input: `validate` at
tolerances `1/1000` on the two samples `[1, 1]` and `[-5, -5]` of `prob7`.
The first sample is feasible — equality residual `0`, its own minimum
lower-bound slack `min 101 2 = 2` and upper-bound slack `min 99 8 = 8` are
positive — so the claim requires its code to be `"v"` (second conjunct);
the second sample violates the inequality lower bound by `10`.  The code
broadcasts `consts` of shape `(1, 2)` against `prob.bounds[0,]` of shape
`(1,)`, `.min(axis=1)` collapses to the global minimum slack `-10` over BOTH
samples, and `np.minimum` folds `-10` into every row's `lb_error`: both
rows — the feasible one included — are coded `"l"` (first conjunct). -/
theorem validate_feasible_row_contaminated_eval :
    validateCodes s7 (1/1000) (1/1000) [[1, 1], [-5, -5]] = ["l", "l"] ∧
      claimCode (1/1000) (1/1000) (eqResidual s7 [1, 1])
        (claimRowLbError s7 [1, 1]) (claimRowUbError s7 [1, 1]) = "v" := by
  refine ⟨by with_unfolding_all decide, by with_unfolding_all decide⟩
